import Mathlib

/-!
Shallow embedding of the static-file segment core of the repository
(crates reth-static-file-types and reth-static-file under src/).
Machine integers (u64, usize) are modelled as Nat; saturating_sub is Nat
truncated subtraction.  Fallible operations return Option or Except.
-/

/-- Segment of the data that can be moved to static files
(src/types/segment.rs, StaticFileSegment). -/
inductive StaticFileSegment
  | Headers
  | Transactions
  | Receipts
deriving DecidableEq, Repr

/-- Inclusive block/tx range with u64 endpoints (SegmentRangeInclusive,
re-exported from src/types/lib.rs; fields start and end with accessors,
as used throughout src/types/segment.rs). -/
structure SegmentRangeInclusive where
  start : Nat
  «end» : Nat
deriving DecidableEq, Repr

/-- SegmentRangeInclusive::new. -/
def SegmentRangeInclusive.new (s e : Nat) : SegmentRangeInclusive := ⟨s, e⟩

/-- StaticFileSegment::as_str; the strum serialize tokens used by as_ref
and FromStr agree with it. -/
def StaticFileSegment.as_str : StaticFileSegment → String
  | .Headers => "headers"
  | .Transactions => "transactions"
  | .Receipts => "receipts"

/-- Default static file block count (src/types/lib.rs, BLOCKS_PER_STATIC_FILE). -/
def BLOCKS_PER_STATIC_FILE : Nat := 500000

/-- src/types/lib.rs, find_fixed_range. -/
def find_fixed_range (block : Nat) : SegmentRangeInclusive :=
  let start := (block / BLOCKS_PER_STATIC_FILE) * BLOCKS_PER_STATIC_FILE
  SegmentRangeInclusive.new start (start + BLOCKS_PER_STATIC_FILE - 1)

/-- A segment header that contains information common to all segments
(src/types/segment.rs, SegmentHeader). -/
structure SegmentHeader where
  expected_block_range : SegmentRangeInclusive
  block_range : Option SegmentRangeInclusive
  tx_range : Option SegmentRangeInclusive
  segment : StaticFileSegment
deriving DecidableEq, Repr

/-- SegmentHeader::new. -/
def SegmentHeader.new (expected_block_range : SegmentRangeInclusive)
    (block_range tx_range : Option SegmentRangeInclusive)
    (segment : StaticFileSegment) : SegmentHeader :=
  ⟨expected_block_range, block_range, tx_range, segment⟩

/-- SegmentHeader::expected_block_start. -/
def SegmentHeader.expected_block_start (h : SegmentHeader) : Nat :=
  h.expected_block_range.start

/-- SegmentHeader::expected_block_end. -/
def SegmentHeader.expected_block_end (h : SegmentHeader) : Nat :=
  h.expected_block_range.«end»

/-- SegmentHeader::block_len: (end + 1) - start of the block range. -/
def SegmentHeader.block_len (h : SegmentHeader) : Option Nat :=
  h.block_range.map fun r => (r.«end» + 1) - r.start

/-- SegmentHeader::tx_len: (end + 1) - start of the tx range. -/
def SegmentHeader.tx_len (h : SegmentHeader) : Option Nat :=
  h.tx_range.map fun r => (r.«end» + 1) - r.start

/-- SegmentHeader::increment_block (src/types/segment.rs lines 220-231):
returns the updated header together with the returned block number. -/
def SegmentHeader.increment_block (h : SegmentHeader) : SegmentHeader × Nat :=
  match h.block_range with
  | some block_range =>
      ({ h with block_range := some ⟨block_range.start, block_range.«end» + 1⟩ },
       block_range.«end» + 1)
  | none =>
      ({ h with block_range := some (SegmentRangeInclusive.new h.expected_block_start h.expected_block_start) },
       h.expected_block_start)

/-- SegmentHeader::increment_tx (src/types/segment.rs lines 235-246). -/
def SegmentHeader.increment_tx (h : SegmentHeader) : SegmentHeader :=
  match h.segment with
  | .Headers => h
  | .Transactions | .Receipts =>
      match h.tx_range with
      | some tx_range => { h with tx_range := some ⟨tx_range.start, tx_range.«end» + 1⟩ }
      | none => { h with tx_range := some (SegmentRangeInclusive.new 0 0) }

/-- SegmentHeader::prune (src/types/segment.rs lines 254-275): the guard
compares num with range.end (not with the range length), and the else
branch sets end to end.saturating_sub(num), i.e. Nat truncated subtraction. -/
def SegmentHeader.prune (h : SegmentHeader) (num : Nat) : SegmentHeader :=
  match h.segment with
  | .Headers =>
      match h.block_range with
      | some range =>
          if num > range.«end» then { h with block_range := none }
          else { h with block_range := some ⟨range.start, range.«end» - num⟩ }
      | none => h
  | .Transactions | .Receipts =>
      match h.tx_range with
      | some range =>
          if num > range.«end» then { h with tx_range := none }
          else { h with tx_range := some ⟨range.start, range.«end» - num⟩ }
      | none => h

/-! Sequences of the mutating operations of the header model, for the
invariant claims. -/

/-- One mutating operation on a SegmentHeader. -/
inductive SegmentOp
  | incBlock
  | incTx
  | pruneOp (num : Nat)
deriving DecidableEq, Repr

/-- Apply one operation (the returned block number of increment_block is
discarded). -/
def applyOp (h : SegmentHeader) : SegmentOp → SegmentHeader
  | .incBlock => h.increment_block.1
  | .incTx => h.increment_tx
  | .pruneOp num => h.prune num

/-- Apply a sequence of operations, left to right. -/
def applyOps (h : SegmentHeader) (ops : List SegmentOp) : SegmentHeader :=
  ops.foldl applyOp h

/-- Number of increment_block operations in a sequence. -/
def countIncBlock (ops : List SegmentOp) : Nat :=
  (ops.filter fun op => match op with | .incBlock => true | _ => false).length

/-! Basic frame lemmas for the header operations. -/

theorem increment_block_expected (h : SegmentHeader) :
    h.increment_block.1.expected_block_range = h.expected_block_range := by
  unfold SegmentHeader.increment_block
  cases h.block_range <;> rfl

theorem increment_tx_expected (h : SegmentHeader) :
    h.increment_tx.expected_block_range = h.expected_block_range := by
  unfold SegmentHeader.increment_tx
  cases h.segment <;> first | rfl | (cases h.tx_range <;> rfl)

theorem increment_tx_block_range (h : SegmentHeader) :
    h.increment_tx.block_range = h.block_range := by
  unfold SegmentHeader.increment_tx
  cases h.segment <;> first | rfl | (cases h.tx_range <;> rfl)

theorem prune_expected (h : SegmentHeader) (num : Nat) :
    (h.prune num).expected_block_range = h.expected_block_range := by
  unfold SegmentHeader.prune
  cases h.segment <;>
    first
      | (cases h.block_range with
         | none => rfl
         | some r => by_cases hn : num > r.«end» <;> simp [hn])
      | (cases h.tx_range with
         | none => rfl
         | some r => by_cases hn : num > r.«end» <;> simp [hn])

theorem applyOp_expected (h : SegmentHeader) (op : SegmentOp) :
    (applyOp h op).expected_block_range = h.expected_block_range := by
  cases op with
  | incBlock => exact increment_block_expected h
  | incTx => exact increment_tx_expected h
  | pruneOp num => exact prune_expected h num

theorem applyOps_expected (ops : List SegmentOp) (h : SegmentHeader) :
    (applyOps h ops).expected_block_range = h.expected_block_range := by
  induction ops generalizing h with
  | nil => rfl
  | cons op rest ih =>
      show (applyOps (applyOp h op) rest).expected_block_range = _
      rw [ih, applyOp_expected]

theorem countIncBlock_cons (op : SegmentOp) (rest : List SegmentOp) :
    countIncBlock (op :: rest) =
      countIncBlock rest + (match op with | .incBlock => 1 | _ => 0) := by
  cases op <;> simp [countIncBlock, List.filter_cons]

theorem increment_block_block_range_some (h : SegmentHeader) (rb : SegmentRangeInclusive)
    (hb : h.block_range = some rb) :
    h.increment_block.1.block_range = some ⟨rb.start, rb.«end» + 1⟩ := by
  unfold SegmentHeader.increment_block
  rw [hb]

theorem increment_block_block_range_none (h : SegmentHeader)
    (hb : h.block_range = none) :
    h.increment_block.1.block_range =
      some ⟨h.expected_block_start, h.expected_block_start⟩ := by
  unfold SegmentHeader.increment_block
  rw [hb]
  rfl

theorem prune_block_range_shrink (h : SegmentHeader) (num : Nat) (r : SegmentRangeInclusive)
    (hr : (h.prune num).block_range = some r) :
    ∃ r0, h.block_range = some r0 ∧ r.start = r0.start ∧ r.«end» ≤ r0.«end» := by
  obtain ⟨e, br, tr, seg⟩ := h
  cases seg with
  | Headers =>
      cases br with
      | none => exact ⟨r, hr, rfl, Nat.le_refl _⟩
      | some rb =>
          by_cases hn : num > rb.«end»
          · simp [SegmentHeader.prune, hn] at hr
          · simp [SegmentHeader.prune, hn] at hr
            exact ⟨rb, rfl, by rw [← hr], by rw [← hr]; exact Nat.sub_le _ _⟩
  | Transactions =>
      cases tr with
      | none => exact ⟨r, hr, rfl, Nat.le_refl _⟩
      | some rt =>
          by_cases hn : num > rt.«end» <;> simp [SegmentHeader.prune, hn] at hr <;>
            exact ⟨r, hr, rfl, Nat.le_refl _⟩
  | Receipts =>
      cases tr with
      | none => exact ⟨r, hr, rfl, Nat.le_refl _⟩
      | some rt =>
          by_cases hn : num > rt.«end» <;> simp [SegmentHeader.prune, hn] at hr <;>
            exact ⟨r, hr, rfl, Nat.le_refl _⟩

theorem containment_inv (ops : List SegmentOp) :
    ∀ (h : SegmentHeader) (E : SegmentRangeInclusive) (k : Nat),
      h.expected_block_range = E →
      (∀ r, h.block_range = some r → r.start = E.start ∧ r.«end» < E.start + k) →
      ∀ r, (applyOps h ops).block_range = some r →
        r.start = E.start ∧ r.«end» < E.start + k + countIncBlock ops := by
  induction ops with
  | nil =>
      intro h E k _ hinv r hr
      have := hinv r hr
      simp [countIncBlock]
      exact ⟨this.1, by omega⟩
  | cons op rest ih =>
      intro h E k hE hinv r hr
      have hstep : applyOps h (op :: rest) = applyOps (applyOp h op) rest := rfl
      rw [hstep] at hr
      cases op with
      | incBlock =>
          have hinv' : ∀ r, (applyOp h .incBlock).block_range = some r →
              r.start = E.start ∧ r.«end» < E.start + (k + 1) := by
            intro r hr
            cases hb : h.block_range with
            | some rb =>
                rw [show applyOp h .incBlock = h.increment_block.1 from rfl,
                    increment_block_block_range_some h rb hb] at hr
                have := hinv rb hb
                cases hr
                refine ⟨this.1, ?_⟩
                show rb.«end» + 1 < E.start + (k + 1)
                omega
            | none =>
                rw [show applyOp h .incBlock = h.increment_block.1 from rfl,
                    increment_block_block_range_none h hb] at hr
                cases hr
                have : h.expected_block_start = E.start := by
                  rw [SegmentHeader.expected_block_start, hE]
                refine ⟨this, ?_⟩
                show h.expected_block_start < E.start + (k + 1)
                omega
          have hc : countIncBlock (SegmentOp.incBlock :: rest) = countIncBlock rest + 1 := by
            simp [countIncBlock_cons]
          rw [hc]
          have := ih (applyOp h .incBlock) E (k + 1)
            (by rw [applyOp_expected, hE]) hinv' r hr
          exact ⟨this.1, by omega⟩
      | incTx =>
          have hinv' : ∀ r, (applyOp h .incTx).block_range = some r →
              r.start = E.start ∧ r.«end» < E.start + k := by
            intro r hr
            rw [show applyOp h .incTx = h.increment_tx from rfl,
                increment_tx_block_range] at hr
            exact hinv r hr
          have hc : countIncBlock (SegmentOp.incTx :: rest) = countIncBlock rest := by
            simp [countIncBlock_cons]
          rw [hc]
          have := ih (applyOp h .incTx) E k
            (by rw [applyOp_expected, hE]) hinv' r hr
          exact ⟨this.1, by omega⟩
      | pruneOp num =>
          have hinv' : ∀ r, (applyOp h (.pruneOp num)).block_range = some r →
              r.start = E.start ∧ r.«end» < E.start + k := by
            intro r hr
            obtain ⟨r0, hb0, hs0, he0⟩ :=
              prune_block_range_shrink h num r hr
            have := hinv r0 hb0
            exact ⟨by rw [hs0, this.1], by omega⟩
          have hc : countIncBlock (SegmentOp.pruneOp num :: rest) = countIncBlock rest := by
            simp [countIncBlock_cons]
          rw [hc]
          have := ih (applyOp h (.pruneOp num)) E k
            (by rw [applyOp_expected, hE]) hinv' r hr
          exact ⟨this.1, by omega⟩

/-- A range is fully contained in an outer range: the outer start is at or
below its start and its end is at or below the outer end. -/
def rangeContained (r outer : SegmentRangeInclusive) : Prop :=
  outer.start ≤ r.start ∧ r.«end» ≤ outer.«end»

instance (r outer : SegmentRangeInclusive) : Decidable (rangeContained r outer) :=
  inferInstanceAs (Decidable (_ ∧ _))

/-- C3 counterexample: starting from a freshly created header with expected
range [0,0] and no committed block range, the operation sequence
[increment_block, increment_block] leaves block_range = [0,1], which is not
contained in the unchanged expected range [0,0]: increment_block never
checks the expected range, so containment fails as soon as it is called
more often than the expected range is long. -/
theorem C3_containment_counterexample :
    (applyOps (SegmentHeader.new ⟨0, 0⟩ none none .Headers)
        [.incBlock, .incBlock]).block_range = some ⟨0, 1⟩ ∧
    (applyOps (SegmentHeader.new ⟨0, 0⟩ none none .Headers)
        [.incBlock, .incBlock]).expected_block_range = ⟨0, 0⟩ ∧
    ¬ rangeContained ⟨0, 1⟩ ⟨0, 0⟩ := by
  decide

/-- C3 (amended): for every SegmentHeader and every sequence of
increment_block, increment_tx and prune, expected_block_range is never
changed; and if the header starts with block_range absent, its expected
range is well formed, and the sequence performs at most
expected-range-length many increment_block operations, then whenever
block_range is present it is fully contained in expected_block_range. -/
theorem C3_expected_stable_and_bounded_containment
    (h : SegmentHeader) (ops : List SegmentOp) :
    (applyOps h ops).expected_block_range = h.expected_block_range ∧
    (h.block_range = none →
      h.expected_block_range.start ≤ h.expected_block_range.«end» →
      countIncBlock ops ≤
        h.expected_block_range.«end» + 1 - h.expected_block_range.start →
      ∀ r, (applyOps h ops).block_range = some r →
        rangeContained r h.expected_block_range) := by
  refine ⟨applyOps_expected ops h, ?_⟩
  intro hnone hvalid hcount r hr
  have := containment_inv ops h h.expected_block_range 0 rfl
    (by intro r hr0; rw [hnone] at hr0; cases hr0) r hr
  exact ⟨by omega, by omega⟩

def C3header : SegmentHeader := SegmentHeader.new ⟨0, 1⟩ none none .Headers

def C3ops : List SegmentOp := [.incBlock, .incBlock, .pruneOp 1]

/-- C3 witness: a concrete run of the amended theorem. -/
theorem C3_containment_witness :
    (applyOps C3header C3ops).expected_block_range = C3header.expected_block_range ∧
    rangeContained ⟨0, 0⟩ C3header.expected_block_range :=
  ⟨(C3_expected_stable_and_bounded_containment C3header C3ops).1,
   (C3_expected_stable_and_bounded_containment C3header C3ops).2 rfl
     (by decide) (by decide) ⟨0, 0⟩ (by decide)⟩

/-- C1: evaluation of prune at a failing input. The claim says that for a
Headers header with block_range = [5,7] (length L = 3), prune(3) must make
the range absent and must never produce an invalid range; the code instead
compares num with range.end (7), keeps the range and sets its end to 4,
leaving block_range = [5,4] with end below start. -/
theorem C1_prune_length_violation :
    (SegmentHeader.new ⟨0, 499999⟩ (some ⟨5, 7⟩) none .Headers).block_len = some 3 ∧
    ((SegmentHeader.new ⟨0, 499999⟩ (some ⟨5, 7⟩) none .Headers).prune 3).block_range =
      some ⟨5, 4⟩ := by
  decide

/-- C5: increment_block with block_range present extends its end by exactly
one and returns the new end; with block_range absent it initializes
block_range to [expected_block_start, expected_block_start] and returns
expected_block_start. -/
theorem C5_increment_block_spec (h : SegmentHeader) :
    (∀ r, h.block_range = some r →
      h.increment_block.2 = r.«end» + 1 ∧
      h.increment_block.1.block_range = some ⟨r.start, r.«end» + 1⟩) ∧
    (h.block_range = none →
      h.increment_block.2 = h.expected_block_start ∧
      h.increment_block.1.block_range =
        some ⟨h.expected_block_start, h.expected_block_start⟩) := by
  constructor
  · intro r hb
    unfold SegmentHeader.increment_block
    rw [hb]
    exact ⟨rfl, rfl⟩
  · intro hb
    unfold SegmentHeader.increment_block
    rw [hb]
    exact ⟨rfl, rfl⟩

def C5header : SegmentHeader := SegmentHeader.new ⟨10, 20⟩ (some ⟨10, 12⟩) none .Headers

/-- C5 witness: a concrete run of increment_block on block_range [10,12]. -/
theorem C5_increment_block_witness :
    C5header.increment_block.2 = 13 ∧
    C5header.increment_block.1.block_range = some ⟨10, 13⟩ :=
  (C5_increment_block_spec C5header).1 ⟨10, 12⟩ rfl

/-- C9: find_fixed_range(b) is the inclusive range
[(b / 500000) * 500000, (b / 500000) * 500000 + 499999]; in particular
find_fixed_range 499999 = [0, 499999], find_fixed_range 500000 =
[500000, 999999], and every returned start is a multiple of 500000. -/
theorem C9_find_fixed_range_spec :
    (∀ b : Nat, find_fixed_range b =
      ⟨b / 500000 * 500000, b / 500000 * 500000 + 499999⟩) ∧
    find_fixed_range 499999 = ⟨0, 499999⟩ ∧
    find_fixed_range 500000 = ⟨500000, 999999⟩ ∧
    (∀ b : Nat, 500000 ∣ (find_fixed_range b).start) := by
  have hmain : ∀ b : Nat, find_fixed_range b =
      ⟨b / 500000 * 500000, b / 500000 * 500000 + 499999⟩ := by
    intro b
    have h1 : find_fixed_range b =
        SegmentRangeInclusive.new (b / 500000 * 500000)
          (b / 500000 * 500000 + 500000 - 1) := rfl
    have h2 : b / 500000 * 500000 + 500000 - 1 = b / 500000 * 500000 + 499999 := by
      omega
    rw [h1]
    unfold SegmentRangeInclusive.new
    rw [h2]
  refine ⟨hmain, by decide, by decide, fun b => ?_⟩
  rw [hmain b]
  exact Dvd.intro_left _ rfl

/-- C10: prune leaves expected_block_range and the segment kind unchanged;
for a Headers header it also leaves tx_range unchanged, and for a
Transactions or Receipts header it leaves block_range unchanged. -/
theorem C10_prune_frame (h : SegmentHeader) (num : Nat) :
    (h.prune num).expected_block_range = h.expected_block_range ∧
    (h.prune num).segment = h.segment ∧
    (h.segment = .Headers → (h.prune num).tx_range = h.tx_range) ∧
    ((h.segment = .Transactions ∨ h.segment = .Receipts) →
      (h.prune num).block_range = h.block_range) := by
  obtain ⟨e, br, tr, seg⟩ := h
  cases seg <;> cases br <;> cases tr <;>
    simp [SegmentHeader.prune] <;>
    split <;> simp

def C10headerA : SegmentHeader := SegmentHeader.new ⟨0, 5⟩ (some ⟨0, 3⟩) (some ⟨7, 9⟩) .Headers

def C10headerB : SegmentHeader :=
  SegmentHeader.new ⟨0, 5⟩ (some ⟨0, 3⟩) (some ⟨7, 9⟩) .Transactions

/-- C10 witness: prune(2) on a concrete Headers header keeps tx_range, and
on a concrete Transactions header keeps block_range. -/
theorem C10_prune_frame_witness :
    (C10headerA.prune 2).tx_range = C10headerA.tx_range ∧
    (C10headerB.prune 2).block_range = C10headerB.block_range :=
  ⟨(C10_prune_frame C10headerA 2).2.2.1 rfl,
   (C10_prune_frame C10headerB 2).2.2.2 (Or.inl rfl)⟩

/-! Dictionary-training sampling and filter key collection
(src/static files/segments/mod.rs and headers.rs).  The database cursor
walkers are external to src: a walker is modelled as the list of row
results it yields, each row an Except of a (key, value) pair, with the
error payload collapsed to Unit. -/

/-- The collect step of dataset_for_compression: the code maps
row.map(into_value).expect("should exist") over the taken rows and
collects them; the first error row is a fatal, non-recoverable failure
(a panic), modelled as the error outcome. -/
def collectExpect {V : Type} : List (Except Unit (Nat × V)) → Except Unit (List V)
  | [] => .ok []
  | .ok (_, v) :: rest => (collectExpect rest).map fun vs => v :: vs
  | .error e :: _ => .error e

/-- src/static files/segments/mod.rs lines 109-119,
dataset_for_compression: given the backward walk from the end of the
range, take range_len.min(1000) rows and collect their values, treating
an error row as fatal. -/
def dataset_for_compression {V : Type} (walker : List (Except Unit (Nat × V)))
    (range_len : Nat) : Except Unit (List V) :=
  collectExpect (walker.take (Nat.min range_len 1000))

/-- Modelled from the spec: the backward-ordered ranged scan of the store
(cursor walk_back from the end key), which is external to src: it yields
the table rows with key at most the end key, in descending key order,
each as an ok row. -/
def walk_back {V : Type} (table : List (Nat × V)) (endKey : Nat) :
    List (Except Unit (Nat × V)) :=
  ((table.filter fun kv => kv.1 ≤ endKey).reverse).map Except.ok

/-- Modelled from the spec: the ascending-order scan of the store (cursor
walk from a start key, as called in headers.rs line 112; unbounded above,
the caller limits it with take), which is external to src: it yields the
table rows with key at least the start key, in ascending key order, each
as an ok row.  A row absent from the table is simply never yielded. -/
def walk {V : Type} (table : List (Nat × V)) (startKey : Nat) :
    List (Except Unit (Nat × V)) :=
  (table.filter fun kv => startKey ≤ kv.1).map Except.ok

/-- Filter key collection of Headers::create_static_file_file
(src/static files/segments/headers.rs lines 108-118): walk forward, take
range_len rows and map each row result to its value; error rows are
converted (map_err) and handed on unchanged, never dropped. -/
def headersKeyCollection {V : Type} (walker : List (Except Unit (Nat × V)))
    (range_len : Nat) : List (Except Unit V) :=
  (walker.take range_len).map fun row => row.map Prod.snd

/-- Whether a row result is an error. -/
def exceptIsError {ε α : Type} : Except ε α → Bool
  | .error _ => true
  | .ok _ => false

theorem collectExpect_ok_length {V : Type} (l : List (Except Unit (Nat × V)))
    (rows : List V) (h : collectExpect l = .ok rows) : rows.length = l.length := by
  induction l generalizing rows with
  | nil =>
      cases h
      rfl
  | cons x rest ih =>
      cases x with
      | error e => cases h
      | ok kv =>
          obtain ⟨k, v⟩ := kv
          cases hrest : collectExpect rest with
          | error e =>
              rw [show collectExpect (Except.ok (k, v) :: rest) =
                (collectExpect rest).map (fun vs => v :: vs) from rfl, hrest] at h
              cases h
          | ok vs0 =>
              rw [show collectExpect (Except.ok (k, v) :: rest) =
                (collectExpect rest).map (fun vs => v :: vs) from rfl, hrest] at h
              cases h
              simp [ih vs0 hrest]

theorem collectExpect_map_ok {V : Type} (l : List (Nat × V)) :
    collectExpect (l.map Except.ok) = .ok (l.map Prod.snd) := by
  induction l with
  | nil => rfl
  | cons kv rest ih =>
      obtain ⟨k, v⟩ := kv
      rw [show (((k, v) :: rest).map Except.ok) = Except.ok (k, v) :: rest.map Except.ok
        from rfl,
        show collectExpect (Except.ok (k, v) :: rest.map Except.ok) =
          (collectExpect (rest.map Except.ok)).map (fun vs => v :: vs) from rfl, ih]
      rfl

theorem collectExpect_error {V : Type} (l : List (Except Unit (Nat × V)))
    (h : l.any exceptIsError = true) : collectExpect l = .error () := by
  induction l with
  | nil => cases h
  | cons x rest ih =>
      cases x with
      | error e =>
          cases e
          rfl
      | ok kv =>
          obtain ⟨k, v⟩ := kv
          have hrest : rest.any exceptIsError = true := by
            simpa [exceptIsError] using h
          rw [show collectExpect (Except.ok (k, v) :: rest) =
            (collectExpect rest).map (fun vs => v :: vs) from rfl, ih hrest]
          rfl

theorem exceptIsError_map {ε α β : Type} (f : α → β) (r : Except ε α) :
    exceptIsError (r.map f) = exceptIsError r := by
  cases r <;> rfl

theorem anyMapGeneral {α β : Type} (f : α → β) (p : β → Bool) (l : List α) :
    (l.map f).any p = l.any fun a => p (f a) := by
  induction l with
  | nil => rfl
  | cons x rest ih => simp [ih]

/-- C6: dataset_for_compression returns at most min(range_len, 1000) rows;
on the backward walk from the end of the range it returns exactly the
values of the first min(range_len, 1000) rows taken walking backward from
the end; in particular with a 10000-row range length it returns at most
1000 rows. -/
theorem C6_dataset_for_compression_bound :
    (∀ (V : Type) (walker : List (Except Unit (Nat × V))) (range_len : Nat)
        (rows : List V),
      dataset_for_compression walker range_len = .ok rows →
      rows.length ≤ Nat.min range_len 1000) ∧
    (∀ (V : Type) (table : List (Nat × V)) (endKey range_len : Nat),
      dataset_for_compression (walk_back table endKey) range_len =
        .ok ((((table.filter fun kv => kv.1 ≤ endKey).reverse).map Prod.snd).take
          (Nat.min range_len 1000))) ∧
    (∀ (V : Type) (walker : List (Except Unit (Nat × V))) (rows : List V),
      dataset_for_compression walker 10000 = .ok rows → rows.length ≤ 1000) := by
  have hlen : ∀ (V : Type) (walker : List (Except Unit (Nat × V))) (range_len : Nat)
      (rows : List V),
      dataset_for_compression walker range_len = .ok rows →
      rows.length ≤ Nat.min range_len 1000 := by
    intro V walker range_len rows h
    have := collectExpect_ok_length _ _ h
    rw [this]
    exact List.length_take_le _ _
  refine ⟨hlen, ?_, ?_⟩
  · intro V table endKey range_len
    unfold dataset_for_compression walk_back
    rw [← List.map_take, collectExpect_map_ok, List.map_take]
  · intro V walker rows h
    have h1 := hlen V walker 10000 rows h
    have h2 : Nat.min 10000 1000 = 1000 := rfl
    omega

/-- C6 witness: a concrete backward walk. -/
theorem C6_dataset_for_compression_witness :
    ([6, 5] : List Nat).length ≤ Nat.min 7 1000 :=
  C6_dataset_for_compression_bound.1 Nat (walk_back [(0, 5), (1, 6)] 1) 7 [6, 5] rfl

/-- C7 counterexample: the claim says a row expected by count but absent
from the store makes the operation fail fatally and never lets it proceed
with fewer rows.  Over the range [0,4] the caller computes range_len = 5,
but the store holds only keys 0 and 4: the backward scan yields just those
two rows, the expect never fires, and sampling succeeds with 2 rows
instead of 5; the forward key collection likewise yields only the two
existing rows, with no error entry. -/
theorem C7_absent_row_silent_counterexample :
    dataset_for_compression (walk_back [((0 : Nat), (10 : Nat)), (4, 14)] 4) 5 =
      .ok [14, 10] ∧
    ([14, 10] : List Nat).length = 2 ∧
    headersKeyCollection (walk [((0 : Nat), (10 : Nat)), (4, 14)] 0) 5 =
      [Except.ok 10, Except.ok 14] :=
  ⟨rfl, rfl, rfl⟩

/-- C7 (amended): a row result carrying a database error within the
sampled prefix makes dataset_for_compression fail fatally, and the
Headers filter key collection keeps one output entry per taken row and
propagates error rows unchanged; but a row absent from the store is not
detected: the scans never yield it, so sampling over a store scan always
succeeds with exactly the rows present below the end key (possibly fewer
than min(range_len, 1000)), and the key collection fills its take quota
from whatever rows exist at or after the start key, never failing on
absence. -/
theorem C7_error_rows_fatal_absence_silent :
    (∀ (V : Type) (walker : List (Except Unit (Nat × V))) (range_len : Nat),
      (walker.take (Nat.min range_len 1000)).any exceptIsError = true →
      dataset_for_compression walker range_len = .error ()) ∧
    (∀ (V : Type) (walker : List (Except Unit (Nat × V))) (range_len : Nat),
      (headersKeyCollection walker range_len).length =
        (walker.take range_len).length ∧
      (headersKeyCollection walker range_len).any exceptIsError =
        (walker.take range_len).any exceptIsError) ∧
    (∀ (V : Type) (table : List (Nat × V)) (endKey range_len : Nat),
      dataset_for_compression (walk_back table endKey) range_len =
        .ok ((((table.filter fun kv => kv.1 ≤ endKey).reverse).map Prod.snd).take
          (Nat.min range_len 1000))) ∧
    (∀ (V : Type) (table : List (Nat × V)) (startKey range_len : Nat),
      headersKeyCollection (walk table startKey) range_len =
        ((table.filter fun kv => startKey ≤ kv.1).take range_len).map
          fun kv => Except.ok kv.2) := by
  refine ⟨?_, ?_, ?_, ?_⟩
  · intro V walker range_len h
    exact collectExpect_error _ h
  · intro V walker range_len
    constructor
    · simp [headersKeyCollection]
    · rw [show headersKeyCollection walker range_len =
        (walker.take range_len).map (fun row => row.map Prod.snd) from rfl,
        anyMapGeneral]
      simp only [exceptIsError_map]
  · intro V table endKey range_len
    unfold dataset_for_compression walk_back
    rw [← List.map_take, collectExpect_map_ok, List.map_take]
  · intro V table startKey range_len
    unfold headersKeyCollection walk
    rw [← List.map_take, List.map_map]
    rfl

/-- C7 witness: a walker whose second row result is a database error makes
the sampling fail. -/
theorem C7_error_row_fatal_witness :
    dataset_for_compression [Except.ok ((0 : Nat), (1 : Nat)), Except.error ()] 5 =
      .error () :=
  C7_error_rows_fatal_absence_silent.1 Nat
    [Except.ok ((0 : Nat), (1 : Nat)), Except.error ()] 5 rfl

/-! Headers::copy_to_static_files (src/static files/segments/headers.rs
lines 24-66).  The three table cursors walk the block range and are
zipped; each zipped entry carries the (block number, value) pair from each
table.  The two debug assertions compare the three block numbers before
the row is appended; a failed assertion is fatal and is modelled as
aborting with the flag false.  The writer is modelled as the list of rows
appended to it; database-error entries of the walkers are orthogonal to
this claim and the walkers are modelled as the lists of the entries they
yield. -/

/-- The asserted condition of one zipped entry: header block equals
total-difficulty block equals canonical-hash block. -/
def rowConsistentB {α β γ : Type} (e : ((Nat × α) × (Nat × β)) × (Nat × γ)) : Bool :=
  decide (e.1.1.1 = e.1.2.1 ∧ e.1.2.1 = e.2.1)

/-- The combined row appended for one zipped entry. -/
def entryRow {α β γ : Type} (e : ((Nat × α) × (Nat × β)) × (Nat × γ)) : α × β × γ :=
  (e.1.1.2, e.1.2.2, e.2.2)

/-- The loop of Headers::copy_to_static_files over the zipped walkers. -/
def headersCopyLoop {α β γ : Type} :
    List (((Nat × α) × (Nat × β)) × (Nat × γ)) → List (α × β × γ) →
      Bool × List (α × β × γ)
  | [], writer => (true, writer)
  | e :: rest, writer =>
      if e.1.1.1 = e.1.2.1 ∧ e.1.2.1 = e.2.1 then
        headersCopyLoop rest (writer ++ [entryRow e])
      else (false, writer)

/-- Headers::copy_to_static_files, on the zip of the three walkers. -/
def Headers_copy_to_static_files {α β γ : Type}
    (headers_walker : List (Nat × α)) (header_td_walker : List (Nat × β))
    (canonical_headers_walker : List (Nat × γ)) (writer : List (α × β × γ)) :
    Bool × List (α × β × γ) :=
  headersCopyLoop ((headers_walker.zip header_td_walker).zip canonical_headers_walker)
    writer

theorem headersCopyLoop_mismatch {α β γ : Type}
    (l : List (((Nat × α) × (Nat × β)) × (Nat × γ))) :
    ∀ writer : List (α × β × γ),
      (∃ e ∈ l, rowConsistentB e = false) →
      headersCopyLoop l writer =
        (false, writer ++ (l.takeWhile rowConsistentB).map entryRow) := by
  induction l with
  | nil =>
      intro w h
      simp at h
  | cons x rest ih =>
      intro w h
      by_cases hx : x.1.1.1 = x.1.2.1 ∧ x.1.2.1 = x.2.1
      · have hxB : rowConsistentB x = true := by
          simp [rowConsistentB, hx]
        have hrest : ∃ e ∈ rest, rowConsistentB e = false := by
          rcases h with ⟨e, he, hef⟩
          cases List.mem_cons.mp he with
          | inl heq =>
              rw [heq, hxB] at hef
              cases hef
          | inr hmem => exact ⟨e, hmem, hef⟩
        have hloop : headersCopyLoop (x :: rest) w =
            headersCopyLoop rest (w ++ [entryRow x]) := by
          simp only [headersCopyLoop]
          rw [if_pos hx]
        have htake : (x :: rest).takeWhile rowConsistentB =
            x :: rest.takeWhile rowConsistentB := by
          simp [List.takeWhile_cons, hxB]
        rw [hloop, ih _ hrest, htake]
        simp
      · have hxB : rowConsistentB x = false := by
          simp only [rowConsistentB, decide_eq_false_iff_not]
          exact hx
        have hloop : headersCopyLoop (x :: rest) w = (false, w) := by
          simp only [headersCopyLoop]
          rw [if_neg hx]
        have htake : (x :: rest).takeWhile rowConsistentB = [] := by
          simp [List.takeWhile_cons, hxB]
        rw [hloop, htake]
        simp

/-- C2: if some zipped entry of the three header-table walkers disagrees on
the block number, Headers::copy_to_static_files fails before committing
that row: the outcome flag is false and the writer holds exactly the rows
of the consistent prefix strictly before the first mismatch. -/
theorem C2_headers_mismatch_aborts {α β γ : Type}
    (headers_walker : List (Nat × α)) (header_td_walker : List (Nat × β))
    (canonical_headers_walker : List (Nat × γ)) (writer : List (α × β × γ))
    (hmis : ∃ e ∈ (headers_walker.zip header_td_walker).zip canonical_headers_walker,
        rowConsistentB e = false) :
    Headers_copy_to_static_files headers_walker header_td_walker
        canonical_headers_walker writer =
      (false, writer ++
        (((headers_walker.zip header_td_walker).zip
            canonical_headers_walker).takeWhile rowConsistentB).map entryRow) :=
  headersCopyLoop_mismatch _ _ hmis

/-- C2 witness: block 1 of the total-difficulty walker reports block 2;
only the consistent first row is appended. -/
theorem C2_headers_mismatch_witness :
    Headers_copy_to_static_files [(0, 10), (1, 11)] [(0, 20), (2, 21)]
        [(0, 30), (1, 31)] ([] : List (Nat × Nat × Nat)) =
      (false, [] ++
        ((([((0 : Nat), (10 : Nat)), (1, 11)].zip [((0 : Nat), (20 : Nat)), (2, 21)]).zip
            [((0 : Nat), (30 : Nat)), (1, 31)]).takeWhile rowConsistentB).map entryRow) :=
  C2_headers_mismatch_aborts [(0, 10), (1, 11)] [(0, 20), (2, 21)] [(0, 30), (1, 31)] []
    ⟨(((1, 11), (2, 21)), (1, 31)), by decide, by decide⟩

/-! Transactions::copy_to_static_files and Receipts::copy_to_static_files
(src/static files/segments/transactions.rs lines 26-64 and
src/static files/segments/receipts.rs lines 25-60).  The provider's
block-body-index lookup and the transaction/receipt walkers are external
to src and are passed as functions; the writer is modelled by the block
numbers its counter was advanced through and the rows appended to it. -/

/-- The provider error raised when a block-body index is absent. -/
inductive ProviderError
  | BlockBodyIndicesNotFound (block : Nat)
deriving DecidableEq, Repr

/-- The block-body index of one block: its owned transaction-number
sub-range (first transaction number and count, as in the store's
block-body-indices table). -/
structure BlockBodyIndices where
  first_tx_num : Nat
  tx_count : Nat
deriving DecidableEq, Repr

/-- The static-file writer for a transaction-indexed segment, modelled by
the blocks its counter was advanced through and the appended rows. -/
structure TxSegmentWriter (τ : Type) where
  blocks : List Nat
  rows : List (Nat × τ)
deriving DecidableEq, Repr

/-- The per-block loop of Transactions::copy_to_static_files: advance the
writer's block counter, resolve the block-body indices (absence is the
fatal NotFound error), then append every walker row of the block's
transaction sub-range. -/
def Transactions_copy_loop {τ : Type} (block_body_indices : Nat → Option BlockBodyIndices)
    (transactions_walker : BlockBodyIndices → List (Nat × τ)) :
    List Nat → TxSegmentWriter τ → Except ProviderError (TxSegmentWriter τ)
  | [], writer => .ok writer
  | block :: rest, writer =>
      let writer1 : TxSegmentWriter τ := { writer with blocks := writer.blocks ++ [block] }
      match block_body_indices block with
      | none => .error (.BlockBodyIndicesNotFound block)
      | some bi =>
          Transactions_copy_loop block_body_indices transactions_walker rest
            { writer1 with rows := writer1.rows ++ transactions_walker bi }

/-- Transactions::copy_to_static_files over the inclusive block range. -/
def Transactions_copy_to_static_files {τ : Type}
    (block_body_indices : Nat → Option BlockBodyIndices)
    (transactions_walker : BlockBodyIndices → List (Nat × τ))
    (start_block end_block : Nat) (writer : TxSegmentWriter τ) :
    Except ProviderError (TxSegmentWriter τ) :=
  Transactions_copy_loop block_body_indices transactions_walker
    (List.range' start_block (end_block + 1 - start_block)) writer

/-- The per-block loop of Receipts::copy_to_static_files: identical shape,
append_receipts appends the whole walker output of the block. -/
def Receipts_copy_loop {τ : Type} (block_body_indices : Nat → Option BlockBodyIndices)
    (receipts_walker : BlockBodyIndices → List (Nat × τ)) :
    List Nat → TxSegmentWriter τ → Except ProviderError (TxSegmentWriter τ)
  | [], writer => .ok writer
  | block :: rest, writer =>
      let writer1 : TxSegmentWriter τ := { writer with blocks := writer.blocks ++ [block] }
      match block_body_indices block with
      | none => .error (.BlockBodyIndicesNotFound block)
      | some bi =>
          Receipts_copy_loop block_body_indices receipts_walker rest
            { writer1 with rows := writer1.rows ++ receipts_walker bi }

/-- Receipts::copy_to_static_files over the inclusive block range. -/
def Receipts_copy_to_static_files {τ : Type}
    (block_body_indices : Nat → Option BlockBodyIndices)
    (receipts_walker : BlockBodyIndices → List (Nat × τ))
    (start_block end_block : Nat) (writer : TxSegmentWriter τ) :
    Except ProviderError (TxSegmentWriter τ) :=
  Receipts_copy_loop block_body_indices receipts_walker
    (List.range' start_block (end_block + 1 - start_block)) writer

theorem txCopyLoop_error_at {τ : Type} (block_body_indices : Nat → Option BlockBodyIndices)
    (transactions_walker : BlockBodyIndices → List (Nat × τ)) :
    ∀ (n s : Nat) (writer : TxSegmentWriter τ) (b : Nat),
      s ≤ b → b < s + n → block_body_indices b = none →
      (∀ b', s ≤ b' → b' < b → (block_body_indices b').isSome = true) →
      Transactions_copy_loop block_body_indices transactions_walker
          (List.range' s n) writer =
        .error (.BlockBodyIndicesNotFound b) := by
  intro n
  induction n with
  | zero =>
      intro s w b h1 h2 _ _
      omega
  | succ n ih =>
      intro s w b h1 h2 h3 h4
      rw [List.range'_succ]
      by_cases hbs : b = s
      · subst hbs
        simp only [Transactions_copy_loop, h3]
      · have hlt : s < b := by omega
        have hsome : (block_body_indices s).isSome = true :=
          h4 s (Nat.le_refl s) hlt
        obtain ⟨bi, hbi⟩ := Option.isSome_iff_exists.mp hsome
        simp only [Transactions_copy_loop, hbi]
        exact ih (s + 1) _ b (by omega) (by omega) h3
          fun b' hb1 hb2 => h4 b' (by omega) hb2

theorem receiptsCopyLoop_error_at {τ : Type}
    (block_body_indices : Nat → Option BlockBodyIndices)
    (receipts_walker : BlockBodyIndices → List (Nat × τ)) :
    ∀ (n s : Nat) (writer : TxSegmentWriter τ) (b : Nat),
      s ≤ b → b < s + n → block_body_indices b = none →
      (∀ b', s ≤ b' → b' < b → (block_body_indices b').isSome = true) →
      Receipts_copy_loop block_body_indices receipts_walker
          (List.range' s n) writer =
        .error (.BlockBodyIndicesNotFound b) := by
  intro n
  induction n with
  | zero =>
      intro s w b h1 h2 _ _
      omega
  | succ n ih =>
      intro s w b h1 h2 h3 h4
      rw [List.range'_succ]
      by_cases hbs : b = s
      · subst hbs
        simp only [Receipts_copy_loop, h3]
      · have hlt : s < b := by omega
        have hsome : (block_body_indices s).isSome = true :=
          h4 s (Nat.le_refl s) hlt
        obtain ⟨bi, hbi⟩ := Option.isSome_iff_exists.mp hsome
        simp only [Receipts_copy_loop, hbi]
        exact ih (s + 1) _ b (by omega) (by omega) h3
          fun b' hb1 hb2 => h4 b' (by omega) hb2

/-- C8: for Transactions and Receipts, if block b in [start_block,
end_block] is the first block whose block-body index is absent, both
copy_to_static_files runs fail with the fatal
BlockBodyIndicesNotFound(b) error for exactly that block; it is never
silently skipped. -/
theorem C8_missing_body_index_not_found {τ : Type}
    (block_body_indices : Nat → Option BlockBodyIndices)
    (transactions_walker receipts_walker : BlockBodyIndices → List (Nat × τ))
    (start_block end_block b : Nat)
    (writerT writerR : TxSegmentWriter τ)
    (hsb : start_block ≤ b) (hbe : b ≤ end_block)
    (hnone : block_body_indices b = none)
    (hfirst : ∀ b', start_block ≤ b' → b' < b → (block_body_indices b').isSome = true) :
    Transactions_copy_to_static_files block_body_indices transactions_walker
        start_block end_block writerT = .error (.BlockBodyIndicesNotFound b) ∧
    Receipts_copy_to_static_files block_body_indices receipts_walker
        start_block end_block writerR = .error (.BlockBodyIndicesNotFound b) :=
  ⟨txCopyLoop_error_at block_body_indices transactions_walker
      (end_block + 1 - start_block) start_block writerT b hsb (by omega) hnone hfirst,
   receiptsCopyLoop_error_at block_body_indices receipts_walker
      (end_block + 1 - start_block) start_block writerR b hsb (by omega) hnone hfirst⟩

def C8indices : Nat → Option BlockBodyIndices :=
  fun b => if b = 1 then none else some ⟨0, 0⟩

def C8walker : BlockBodyIndices → List (Nat × Nat) := fun _ => []

/-- C8 witness: block 1 of range [0,2] has no block-body index. -/
theorem C8_missing_body_index_witness :
    Transactions_copy_to_static_files C8indices C8walker 0 2 ⟨[], []⟩ =
      .error (.BlockBodyIndicesNotFound 1) ∧
    Receipts_copy_to_static_files C8indices C8walker 0 2 ⟨[], []⟩ =
      .error (.BlockBodyIndicesNotFound 1) :=
  C8_missing_body_index_not_found C8indices C8walker C8walker 0 2 1 ⟨[], []⟩ ⟨[], []⟩
    (by decide) (by decide) rfl
    fun b' _ h2 => by rw [Nat.lt_one_iff.mp h2]; rfl

/-! Filename generation and parsing (src/types/segment.rs lines 78-80 and
102-116).  Rust strings are modelled as their character lists; the split
on the underscore character mirrors str::split, and u64 Display/FromStr
are modelled by decimal digit lists with the u64 bound checked on
parsing. -/

/-- str::split on a single separator character: splits a character list at
every occurrence of c, keeping empty pieces, as the Rust iterator does. -/
def splitOnChar (c : Char) : List Char → List (List Char)
  | [] => [[]]
  | x :: xs =>
      if x = c then [] :: splitOnChar c xs
      else
        match splitOnChar c xs with
        | [] => [[x]]
        | p :: ps => (x :: p) :: ps

/-- u64 Display: the decimal digit characters of n, most significant
first. -/
def toDecimal (n : Nat) : List Char :=
  if _h : n < 10 then [Nat.digitChar n]
  else toDecimal (n / 10) ++ [Nat.digitChar (n % 10)]
decreasing_by exact Nat.div_lt_self (by omega) (by omega)

/-- The accumulated value of a decimal digit list. -/
def digitsVal (l : List Char) : Nat :=
  l.foldl (fun acc ch => acc * 10 + (ch.toNat - 48)) 0

/-- The digit-string core of u64::from_str: a non-empty all-digit string
whose value fits in u64 (checking the final value is equivalent to Rust's
stepwise overflow check, since every prefix value is at most the final
value). -/
def parseDigitsChecked (l : List Char) : Option Nat :=
  if l ≠ [] ∧ (∀ ch ∈ l, ch.isDigit = true) ∧ digitsVal l < 2 ^ 64 then
    some (digitsVal l)
  else none

/-- u64::from_str: an optional leading plus sign followed by the digit
core. -/
def parseU64 (l : List Char) : Option Nat :=
  match l with
  | [] => none
  | ch :: rest => if ch = '+' then parseDigitsChecked rest else parseDigitsChecked (ch :: rest)

/-- FromStr of StaticFileSegment, derived by strum EnumString from the
serialize tokens. -/
def StaticFileSegment.from_str (s : List Char) : Option StaticFileSegment :=
  if s = "headers".toList then some .Headers
  else if s = "transactions".toList then some .Transactions
  else if s = "receipts".toList then some .Receipts
  else none

/-- StaticFileSegment::filename: the character list of
format "static_file_{segment}_{start}_{end}". -/
def StaticFileSegment.filename (seg : StaticFileSegment)
    (block_range : SegmentRangeInclusive) : List Char :=
  "static_file_".toList ++ (seg.as_str.toList ++
    ('_' :: (toDecimal block_range.start ++ ('_' :: toDecimal block_range.«end»))))

/-- StaticFileSegment::parse_filename: split on underscores, require the
static and file prefix tokens, parse the segment token and the two u64
endpoints, and reject ranges with start above end; trailing extra parts
are ignored because the Rust part iterator is advanced only five times. -/
def StaticFileSegment.parse_filename (name : List Char) :
    Option (StaticFileSegment × SegmentRangeInclusive) :=
  match splitOnChar '_' name with
  | s1 :: s2 :: parts =>
      if s1 = "static".toList ∧ s2 = "file".toList then
        match parts with
        | seg :: a :: b :: _ =>
            match StaticFileSegment.from_str seg, parseU64 a, parseU64 b with
            | some segment, some block_start, some block_end =>
                if block_start > block_end then none
                else some (segment, SegmentRangeInclusive.new block_start block_end)
            | _, _, _ => none
        | _ => none
      else none
  | _ => none

theorem splitOnChar_of_not_mem (c : Char) (l : List Char) (h : c ∉ l) :
    splitOnChar c l = [l] := by
  induction l with
  | nil => rfl
  | cons x xs ih =>
      have hxc : x ≠ c := fun he => h (he ▸ List.mem_cons_self x xs)
      have hxs : c ∉ xs := fun hm => h (List.mem_cons_of_mem _ hm)
      simp only [splitOnChar]
      rw [if_neg hxc, ih hxs]

theorem splitOnChar_append_cons (c : Char) (l1 l2 : List Char) (h : c ∉ l1) :
    splitOnChar c (l1 ++ c :: l2) = l1 :: splitOnChar c l2 := by
  induction l1 with
  | nil =>
      simp [splitOnChar]
  | cons x xs ih =>
      have hxc : x ≠ c := fun he => h (he ▸ List.mem_cons_self x xs)
      have hxs : c ∉ xs := fun hm => h (List.mem_cons_of_mem _ hm)
      simp only [List.cons_append, splitOnChar, List.append_eq]
      rw [if_neg hxc, ih hxs]

theorem digitChar_isDigit (m : Nat) (h : m < 10) : (Nat.digitChar m).isDigit = true := by
  interval_cases m <;> rfl

theorem digitChar_toNat (m : Nat) (h : m < 10) : (Nat.digitChar m).toNat = 48 + m := by
  interval_cases m <;> rfl

theorem toDecimal_ne_nil (n : Nat) : toDecimal n ≠ [] := by
  rw [toDecimal]
  split <;> simp

theorem toDecimal_all_digits (n : Nat) :
    ∀ ch ∈ toDecimal n, ch.isDigit = true := by
  induction n using toDecimal.induct with
  | case1 n h =>
      intro ch hch
      rw [toDecimal, dif_pos h] at hch
      rw [List.mem_singleton.mp hch]
      exact digitChar_isDigit n h
  | case2 n h ih =>
      intro ch hch
      rw [toDecimal, dif_neg h] at hch
      cases List.mem_append.mp hch with
      | inl hl => exact ih ch hl
      | inr hr =>
          rw [List.mem_singleton.mp hr]
          exact digitChar_isDigit (n % 10) (by omega)

theorem toDecimal_no_underscore (n : Nat) : '_' ∉ toDecimal n := by
  intro hm
  have := toDecimal_all_digits n '_' hm
  exact absurd this (by decide)

theorem digitsVal_append_one (l : List Char) (ch : Char) :
    digitsVal (l ++ [ch]) = digitsVal l * 10 + (ch.toNat - 48) := by
  unfold digitsVal
  rw [List.foldl_append]
  rfl

theorem digitsVal_toDecimal (n : Nat) : digitsVal (toDecimal n) = n := by
  induction n using toDecimal.induct with
  | case1 n h =>
      rw [toDecimal, dif_pos h]
      have hd := digitChar_toNat n h
      show (0 * 10 + ((Nat.digitChar n).toNat - 48)) = n
      omega
  | case2 n h ih =>
      rw [toDecimal, dif_neg h, digitsVal_append_one, ih,
        digitChar_toNat (n % 10) (by omega)]
      omega

theorem parseU64_toDecimal (n : Nat) (hn : n < 2 ^ 64) :
    parseU64 (toDecimal n) = some n := by
  cases hd : toDecimal n with
  | nil => exact absurd hd (toDecimal_ne_nil n)
  | cons c cs =>
      have hcdig : c.isDigit = true :=
        toDecimal_all_digits n c (hd ▸ List.mem_cons_self c cs)
      have hplus : c ≠ '+' := by
        intro he
        rw [he] at hcdig
        exact absurd hcdig (by decide)
      have hall : ∀ ch ∈ c :: cs, ch.isDigit = true := hd ▸ toDecimal_all_digits n
      have hval : digitsVal (c :: cs) = n := hd ▸ digitsVal_toDecimal n
      show (if c = '+' then parseDigitsChecked cs else parseDigitsChecked (c :: cs)) = some n
      rw [if_neg hplus]
      unfold parseDigitsChecked
      rw [if_pos ⟨List.cons_ne_nil c cs, hall, by rw [hval]; exact hn⟩, hval]

theorem static_file_prefix_decomp (rest : List Char) :
    "static_file_".toList ++ rest =
      "static".toList ++ '_' :: ("file".toList ++ '_' :: rest) := by
  have h : "static_file_".toList =
      "static".toList ++ '_' :: ("file".toList ++ ['_']) := by decide
  rw [h]
  simp [List.append_assoc]

theorem splitOnChar_token_filename (tok : List Char) (s e : Nat) (htok : '_' ∉ tok) :
    splitOnChar '_'
        ("static_file_".toList ++
          (tok ++ ('_' :: (toDecimal s ++ ('_' :: toDecimal e))))) =
      ["static".toList, "file".toList, tok, toDecimal s, toDecimal e] := by
  rw [static_file_prefix_decomp]
  rw [splitOnChar_append_cons _ _ _ (by decide)]
  rw [splitOnChar_append_cons _ _ _ (by decide)]
  rw [splitOnChar_append_cons _ _ _ htok]
  rw [splitOnChar_append_cons _ _ _ (toDecimal_no_underscore s)]
  rw [splitOnChar_of_not_mem _ _ (toDecimal_no_underscore e)]

theorem parse_filename_token (tok : List Char) (s e : Nat) (htok : '_' ∉ tok) :
    StaticFileSegment.parse_filename
        ("static_file_".toList ++
          (tok ++ ('_' :: (toDecimal s ++ ('_' :: toDecimal e))))) =
      (match StaticFileSegment.from_str tok, parseU64 (toDecimal s),
          parseU64 (toDecimal e) with
        | some segment, some block_start, some block_end =>
            if block_start > block_end then none
            else some (segment, SegmentRangeInclusive.new block_start block_end)
        | _, _, _ => none) := by
  unfold StaticFileSegment.parse_filename
  rw [splitOnChar_token_filename tok s e htok]
  rfl

theorem parse_filename_eval (seg : StaticFileSegment) (r : SegmentRangeInclusive)
    (hs : r.start < 2 ^ 64) (he : r.«end» < 2 ^ 64) :
    StaticFileSegment.parse_filename (seg.filename r) =
      if r.start > r.«end» then none
      else some (seg, SegmentRangeInclusive.new r.start r.«end») := by
  have hfile : seg.filename r =
      "static_file_".toList ++ (seg.as_str.toList ++
        ('_' :: (toDecimal r.start ++ ('_' :: toDecimal r.«end»)))) := rfl
  have htok : '_' ∉ seg.as_str.toList := by cases seg <;> decide
  have hseg : StaticFileSegment.from_str seg.as_str.toList = some seg := by
    cases seg <;> rfl
  rw [hfile, parse_filename_token _ _ _ htok, hseg,
    parseU64_toDecimal _ hs, parseU64_toDecimal _ he]

/-- C4: for every segment kind and range with u64 endpoints, parsing the
generated filename recovers exactly the kind and the range when start is
at most end; parsing returns none when the filename's range has start
above end, and returns none when the segment token (underscore-free) is
not one of headers, transactions, receipts. -/
theorem C4_filename_round_trip :
    (∀ (seg : StaticFileSegment) (s e : Nat), s < 2 ^ 64 → e < 2 ^ 64 → s ≤ e →
      StaticFileSegment.parse_filename (seg.filename ⟨s, e⟩) = some (seg, ⟨s, e⟩)) ∧
    (∀ (seg : StaticFileSegment) (s e : Nat), s < 2 ^ 64 → e < 2 ^ 64 → e < s →
      StaticFileSegment.parse_filename (seg.filename ⟨s, e⟩) = none) ∧
    (∀ (tok : List Char) (s e : Nat), '_' ∉ tok →
      StaticFileSegment.from_str tok = none →
      StaticFileSegment.parse_filename
        ("static_file_".toList ++
          (tok ++ ('_' :: (toDecimal s ++ ('_' :: toDecimal e))))) = none) := by
  refine ⟨?_, ?_, ?_⟩
  · intro seg s e hs he hse
    rw [parse_filename_eval seg ⟨s, e⟩ hs he]
    have hne : ¬((SegmentRangeInclusive.mk s e).start >
        (SegmentRangeInclusive.mk s e).«end») := by
      show ¬(s > e)
      omega
    rw [if_neg hne]
    rfl
  · intro seg s e hs he hes
    rw [parse_filename_eval seg ⟨s, e⟩ hs he]
    have hgt : (SegmentRangeInclusive.mk s e).start >
        (SegmentRangeInclusive.mk s e).«end» := by
      show s > e
      omega
    rw [if_pos hgt]
  · intro tok s e htok hnone
    rw [parse_filename_token tok s e htok, hnone]

/-- C4 witness: the Headers filename of [0,1] parses back, the inverted
range [1,0] is rejected, and an unknown segment token is rejected. -/
theorem C4_filename_round_trip_witness :
    StaticFileSegment.parse_filename (StaticFileSegment.Headers.filename ⟨0, 1⟩) =
      some (.Headers, ⟨0, 1⟩) ∧
    StaticFileSegment.parse_filename (StaticFileSegment.Headers.filename ⟨1, 0⟩) =
      none ∧
    StaticFileSegment.parse_filename
      ("static_file_".toList ++
        ("bodies".toList ++ ('_' :: (toDecimal 0 ++ ('_' :: toDecimal 1))))) = none :=
  ⟨C4_filename_round_trip.1 .Headers 0 1 (by decide) (by decide) (by decide),
   C4_filename_round_trip.2.1 .Headers 1 0 (by decide) (by decide) (by decide),
   C4_filename_round_trip.2.2 "bodies".toList 0 1 (by decide) rfl⟩
